import Mathlib

/-!
Verification of the OneDrive-clone sync tool (`sync/sync.js`, two near-duplicate
script variants) against its natural-language specification.

The development shallowly embeds the sync core:
* the key computation (`mapKey`, from the inline expression in `main`),
* the content-type fallback (`contentTypeOf`, `mime.lookup(rel) || '...'`),
* CLI argument parsing (`parseArgs`),
* the bounded-concurrency scheduler `limitConcurrency`, in both source
  variants, as an explicit small-step machine over worker states, with the
  interleaving of `await` resumption points given by an explicit schedule.
-/

namespace OneDriveClone

/-! ## Key Mapper

Variant part_001 computes
  `(prefix ? prefix.replace(/(^\/+)|(\/+?$)/g, '') + '/' : '') + rel.split('\\').join('/')`
and part_002 the same with `rel.replace(/\\/g, '/')`.

`split('\\').join('/')` and `replace(/\\/g,'/')` both replace every backslash
by a forward slash.  The global regex `(^\/+)|(\/+?$)` removes the maximal
leading run of slashes (first alternative, anchored at the start, greedy) and
the maximal trailing run (second alternative: at the leftmost position from
which a match can reach the end, the lazy `+?` must still expand to the end
of the string to satisfy `$`, so the whole trailing run is removed). -/

/-- Replace every backslash with a forward slash
(`rel.split('\\').join('/')` resp. `rel.replace(/\\/g, '/')`). -/
def normalizeSep (s : String) : String :=
  ⟨s.data.map (fun c => if c == '\\' then '/' else c)⟩

/-- `prefix.replace(/(^\/+)|(\/+?$)/g, '')`: strip all leading and all
trailing slashes. -/
def trimSlashes (s : String) : String :=
  ⟨(((s.data.dropWhile (fun c => c == '/')).reverse.dropWhile
      (fun c => c == '/'))).reverse⟩

/-- The key computation from `main`:
`(pre ? trimSlashes(pre) + '/' : '') + normalizeSep(rel)`.
A JavaScript string is truthy exactly when it is nonempty. -/
def mapKey (rel pre : String) : String :=
  (if pre = "" then "" else trimSlashes pre ++ "/") ++ normalizeSep rel

/-- Spec-side normalization, following §4.2 step (1): "replace every backslash
in `relativePath` with a forward slash". -/
def specNormalize (p : String) : String :=
  ⟨p.data.map (fun c => if c == '\\' then '/' else c)⟩

/-- Spec-side prefix trimming, following §4.2 step (2): "strip leading slashes
and trailing slashes from it". -/
def specTrimPrefix (x : String) : String :=
  ⟨(((x.data.dropWhile (fun c => c == '/')).reverse.dropWhile
      (fun c => c == '/'))).reverse⟩

/-- The Key Mapper as described by §4.2 of the spec: if the prefix is empty
the key is the normalized path unchanged, otherwise the trimmed prefix,
a slash, and the normalized path. -/
def specMap (rel pre : String) : String :=
  if pre = "" then specNormalize rel
  else specTrimPrefix pre ++ "/" ++ specNormalize rel

/-- Does the string begin with a slash? -/
def headIsSlash (s : String) : Bool :=
  match s.data.head? with
  | none => false
  | some c => c == '/'

/-- Does the string end with a slash? -/
def endsWithSlash (s : String) : Bool :=
  match s.data.getLast? with
  | none => false
  | some c => c == '/'

/-- Does the string contain a character other than a slash? -/
def hasNonSlash (s : String) : Bool :=
  s.data.any (fun c => !(c == '/'))

/-! ## Content-Type Resolver

The source computes `mime.lookup(rel) || 'application/octet-stream'`, where
`mime-types` is an external dependency not in this repository. -/

/-- Modelled from the spec: the static extension→MIME-type table of the
external `mime-types` dependency ("a static extension→type table", §4.3);
only a representative fragment is fixed, including the extensions the
spec's scenarios mention. -/
def mimeTable : List (String × String) :=
  [("jpg", "image/jpeg"), ("jpeg", "image/jpeg"), ("png", "image/png"),
   ("gif", "image/gif"), ("txt", "text/plain"), ("html", "text/html"),
   ("css", "text/css"), ("js", "application/javascript"),
   ("json", "application/json"), ("pdf", "application/pdf"),
   ("mp4", "video/mp4")]

/-- The extension of a filename: the characters after the last dot, if any. -/
def extOf (name : String) : Option String :=
  if name.data.contains '.' then
    some ⟨(name.data.reverse.takeWhile (fun c => !(c == '.'))).reverse⟩
  else none

/-- Modelled from the spec: `mime.lookup` — "Looks up a MIME type by the
file's extension using a static extension→type table" (§4.3); returns
`none` (JavaScript `false`) when the extension is unknown or absent. -/
def mimeLookup (name : String) : Option String :=
  (extOf name).bind fun e =>
    (mimeTable.find? (fun p => p.1 == ⟨e.data.map Char.toLower⟩)).map (·.2)

/-- The source line `mime.lookup(rel) || 'application/octet-stream'`:
a falsy lookup result falls back to the generic binary type. -/
def contentTypeOf (name : String) : String :=
  (mimeLookup name).getD "application/octet-stream"

/-! ## CLI argument parsing (`parseArgs`) -/

/-- The parsed configuration object
`{ dir: '', prefix: '', dry: false, concurrency: 5 }`.
(The spec calls this the SyncJob.)  `concurrency` is the result of
JavaScript `parseInt`, with `none` standing for `NaN`.
The `prefix` field is named `pre` here. -/
structure SyncConfig where
  dir : String
  pre : String
  dry : Bool
  concurrency : Option Int
deriving Repr, DecidableEq

/-- Digits of a decimal numeral, most significant first. -/
def digitsToNat (l : List Char) : Nat :=
  l.foldl (fun acc c => 10 * acc + (c.toNat - '0'.toNat)) 0

/-- JavaScript `parseInt(s, 10)`: skip leading whitespace, optional sign,
then the longest prefix of decimal digits; `NaN` (here `none`) if that
prefix is empty. -/
def jsParseInt (s : String) : Option Int :=
  let cs := s.data.dropWhile (fun c =>
    c == ' ' || c == '\t' || c == '\n' || c == '\r')
  match cs with
  | '-' :: rest =>
      let ds := rest.takeWhile Char.isDigit
      if ds.isEmpty then none else some (-(digitsToNat ds : Int))
  | '+' :: rest =>
      let ds := rest.takeWhile Char.isDigit
      if ds.isEmpty then none else some (digitsToNat ds : Int)
  | rest =>
      let ds := rest.takeWhile Char.isDigit
      if ds.isEmpty then none else some (digitsToNat ds : Int)

/-- The argument loop of `parseArgs`: scan the argument vector, consuming the
token after `--dir`, `--prefix`, `--concurrency` as that flag's value
(JavaScript `args[++i]`; a missing value reads as `undefined`/`''`). -/
def parseLoop : List String → SyncConfig → SyncConfig
  | [], out => out
  | a :: rest, out =>
    if a = "--dir" then
      match rest with
      | v :: rest' => parseLoop rest' { out with dir := v }
      | [] => { out with dir := "" }
    else if a = "--prefix" then
      match rest with
      | v :: rest' => parseLoop rest' { out with pre := v }
      | [] => { out with pre := "" }
    else if a = "--dry" then parseLoop rest { out with dry := true }
    else if a = "--concurrency" then
      match rest with
      | v :: rest' =>
          parseLoop rest'
            { out with concurrency := jsParseInt (if v = "" then "5" else v) }
      | [] => { out with concurrency := jsParseInt "5" }
    else parseLoop rest out

/-- `parseArgs`: run the loop on the arguments after the script name, then
reject (usage message and `process.exit(1)`, modelled as `none`) exactly when
`out.dir` is falsy, i.e. empty.  No other field is validated. -/
def parseArgs (args : List String) : Option SyncConfig :=
  let out := parseLoop args ⟨"", "", false, some 5⟩
  if out.dir = "" then none else some out

/-! ## The bounded-concurrency scheduler (`limitConcurrency`)

Both script variants run `min(limit, items.length)` cooperative runner loops
over a shared integer cursor.  JavaScript is single-threaded: code between
two `await`s runs atomically, and the only suspension point of a runner loop
is `await worker(items[i])`.  We model each runner as either

* `suspended i` — it has claimed index `i` and is parked at the `await`;
* `done` — its loop has exited normally (its promise resolved);
* `failed i` — `worker(items[i])` threw/rejected, so the runner's promise
  rejected while processing index `i` (there is no `try`/`catch` in either
  variant's runner or worker).

A scheduler step resumes one suspended runner: the awaited worker result for
its claimed index is delivered (written into `results`, or the runner fails),
and the runner synchronously claims its next index and parks again or
terminates.  An execution is a `List Nat` of runner choices (the
interleaving); choices naming a non-suspended runner are no-ops.

The two variants differ only in the claim operation:

* part_001 (`for (;;) { const i = nextIndex++; if (i >= items.length) break; ... }`)
  increments first and then tests — the cursor can overshoot `L`;
* part_002 (`while (idx < items.length) { const current = idx++; ... }`)
  tests first and increments only below `L`.

Each claim of an index `< L` is recorded in the ghost field `claims`,
in claim order ("the index is handed to a worker").

`results` models the JavaScript results array as `L` option slots
(part_001 pre-sizes `new Array(items.length)`; part_002 grows `[]` by
indexed writes, holes being `undefined`, i.e. `none`). -/

/-- The state of one runner loop between suspension points. -/
inductive Runner where
  | suspended (i : Nat)
  | done
  | failed (i : Nat)
deriving Repr, DecidableEq

/-- Global state of one `limitConcurrency` call. -/
structure LCState (ρ : Type) where
  nextIndex : Nat
  results : List (Option ρ)
  runners : List Runner
  claims : List Nat
deriving Repr, DecidableEq

/-- part_001's claim: `const i = nextIndex++; if (i >= items.length) break;`
— increment unconditionally, park on `i` only when `i < L`. -/
def claimA (L n : Nat) : Runner × Nat :=
  (if n < L then Runner.suspended n else Runner.done, n + 1)

/-- part_002's claim: `while (idx < items.length) { const current = idx++; ... }`
— test first, increment only when below `L`. -/
def claimB (L n : Nat) : Runner × Nat :=
  if n < L then (Runner.suspended n, n + 1) else (Runner.done, n)

/-- The ghost record of a claim: the handed-out index, if any. -/
def claimRec : Runner → List Nat
  | Runner.suspended j => [j]
  | _ => []

/-- Start one runner: it runs synchronously up to its first `await`
(or straight to termination), performing one claim. -/
def spawn (claim : Nat → Nat → Runner × Nat) (L : Nat) {ρ : Type}
    (s : LCState ρ) : LCState ρ :=
  let c := claim L s.nextIndex
  { s with nextIndex := c.2, runners := s.runners ++ [c.1],
           claims := s.claims ++ claimRec c.1 }

/-- Start `k` runners in order (`Array.from({length: k}, run)` resp.
`new Array(k).fill(null).map(async () => ...)` call the runner bodies
synchronously, in order, each up to its first `await`). -/
def spawnN (claim : Nat → Nat → Runner × Nat) (L : Nat) {ρ : Type} :
    Nat → LCState ρ → LCState ρ
  | 0, s => s
  | k + 1, s => spawnN claim L k (spawn claim L s)

/-- The state after the synchronous part of `limitConcurrency`:
`min(limit, items.length)` runners launched over a fresh cursor and a fresh
results array. -/
def launch (claim : Nat → Nat → Runner × Nat) (ρ : Type) (L C : Nat) :
    LCState ρ :=
  spawnN claim L (min C L) ⟨0, List.replicate L none, [], []⟩

/-- Resume runner `r`: deliver the awaited worker outcome for its claimed
index, then let it claim again (on success) or record its rejection. -/
def step {ι ρ ε : Type} (claim : Nat → Nat → Runner × Nat) (items : List ι)
    (w : ι → Except ε ρ) (s : LCState ρ) (r : Nat) : LCState ρ :=
  match s.runners[r]? with
  | some (Runner.suspended i) =>
    match (items[i]?).map w with
    | some (Except.ok v) =>
        let c := claim items.length s.nextIndex
        { nextIndex := c.2,
          results := s.results.set i (some v),
          runners := s.runners.set r c.1,
          claims := s.claims ++ claimRec c.1 }
    | some (Except.error _) =>
        { s with runners := s.runners.set r (Runner.failed i) }
    | none => s
  | _ => s

/-- Run a whole interleaving. -/
def run {ι ρ ε : Type} (claim : Nat → Nat → Runner × Nat) (items : List ι)
    (w : ι → Except ε ρ) (sched : List Nat) (s : LCState ρ) : LCState ρ :=
  sched.foldl (step claim items w) s

/-- Has this runner's loop exited normally? -/
def Runner.isDone : Runner → Bool
  | Runner.done => true
  | _ => false

/-- Has this runner's promise rejected? -/
def Runner.isFailed : Runner → Bool
  | Runner.failed _ => true
  | _ => false

/-- Every runner's promise has resolved: `await Promise.all(runners)`
returns and `limitConcurrency` returns `results`. -/
def allDone {ρ : Type} (s : LCState ρ) : Bool :=
  s.runners.all Runner.isDone

/-- Some runner's promise has rejected: `Promise.all` rejects. -/
def anyFailed {ρ : Type} (s : LCState ρ) : Bool :=
  s.runners.any Runner.isFailed

/-- The process exit status determined by a final state: `main().catch`
exits `1` as soon as some runner rejected; if all runners resolved, `main`
prints `Done.` and the process exits `0`; otherwise the run is still
pending (`none`). -/
def exitCode {ρ : Type} (s : LCState ρ) : Option Nat :=
  if anyFailed s then some 1 else if allDone s then some 0 else none

/-- The number of filled result slots. -/
def okCount {ρ : Type} (s : LCState ρ) : Nat :=
  (s.results.filterMap id).length

/-- The two source claim operations agree on this contract: below the length
they hand out exactly the cursor value and advance it by one; at or above the
length they produce a terminated runner without moving the cursor backwards. -/
def GoodClaim (claim : Nat → Nat → Runner × Nat) : Prop :=
  ∀ L n, (n < L → claim L n = (Runner.suspended n, n + 1)) ∧
    (L ≤ n → (claim L n).1 = Runner.done ∧ n ≤ (claim L n).2)

/-- In the runner list `rs`, runner `r` currently holds index `i`: it is
parked on it or its promise rejected while processing it. -/
def lOwner (rs : List Runner) (r i : Nat) : Prop :=
  rs[r]? = some (Runner.suspended i) ∨ rs[r]? = some (Runner.failed i)

/-- Runner `r` currently holds index `i` in state `s`. -/
def ownerAt {ρ : Type} (s : LCState ρ) (r i : Nat) : Prop :=
  lOwner s.runners r i

/-- The inductive invariant of `limitConcurrency`, for either claim variant.
Writing `L` for `items.length` and `n` for the cursor, the claimed indices
are exactly `0 .. min n L - 1`; each is held by exactly one runner or already
has its worker's result in its slot; unclaimed slots are empty; a terminated
runner has seen the cursor at or above `L`; a rejected runner holds an index
whose worker call threw. -/
structure Inv {ι ρ ε : Type} (items : List ι) (w : ι → Except ε ρ)
    (s : LCState ρ) : Prop where
  len : s.results.length = items.length
  claims_eq : s.claims = List.range (min s.nextIndex items.length)
  own_lt : ∀ r i, ownerAt s r i → i < min s.nextIndex items.length
  res_ok : ∀ i v, s.results[i]? = some (some v) →
    i < min s.nextIndex items.length ∧
    (items[i]?).map w = some (Except.ok v) ∧ ∀ r, ¬ ownerAt s r i
  uniq : ∀ r₁ r₂ i, ownerAt s r₁ i → ownerAt s r₂ i → r₁ = r₂
  cover : ∀ i, i < min s.nextIndex items.length →
    (∃ v, s.results[i]? = some (some v)) ∨ ∃ r, ownerAt s r i
  done_n : ∀ r : Nat, s.runners[r]? = some Runner.done →
    items.length ≤ s.nextIndex
  fail_err : ∀ (r : Nat) (i : Nat), s.runners[r]? = some (Runner.failed i) →
    ∃ e, (items[i]?).map w = some (Except.error e)

/-- Correspondence between a part_001 state and a part_002 state: all
observable components agree; the cursors agree up to part_001's overshoot
past the length. -/
def Sim (L : Nat) {ρ : Type} (sA sB : LCState ρ) : Prop :=
  sA.results = sB.results ∧ sA.runners = sB.runners ∧
  sA.claims = sB.claims ∧ min sA.nextIndex L = sB.nextIndex ∧
  sB.nextIndex ≤ L

/-- A full part_001 `limitConcurrency` execution under interleaving `sched`. -/
def runA {ι ρ ε : Type} (items : List ι) (w : ι → Except ε ρ) (C : Nat)
    (sched : List Nat) : LCState ρ :=
  run claimA items w sched (launch claimA ρ items.length C)

/-- A full part_002 `limitConcurrency` execution under interleaving `sched`. -/
def runB {ι ρ ε : Type} (items : List ι) (w : ι → Except ε ρ) (C : Nat)
    (sched : List Nat) : LCState ρ :=
  run claimB items w sched (launch claimB ρ items.length C)

/-! ## The per-file upload worker of `main`

```
const data = fs.readFileSync(abs);                      // may throw
const key = (prefix ? ... : '') + rel.replace(/\\/g, '/');
const contentType = mime.lookup(rel) || 'application/octet-stream';
if (dry) { console.log(`[dry] PUT ${key} (${data.length} bytes)`); return; }
await s3.send(new PutObjectCommand({...}));             // may reject
console.log(`PUT ${key}`);
```

There is no `try`/`catch`: a read or transfer failure makes the worker's
promise reject.  A successful call's observable outcome is its log lines and
the store `put`s it issued; bytes are abstracted by their count. -/

/-- Why a worker's promise rejected. -/
inductive UploadError where
  | fileReadError
  | transferError
deriving Repr, DecidableEq

/-- A `put(key, body, contentType)` issued to the store, with the body
abstracted by its byte count. -/
abbrev PutCall := String × Nat × String

/-- Observable outcome of one successful worker call: its log lines and the
store puts it issued. -/
abbrev UploadOut := List String × List PutCall

/-- The upload worker callback of `main`: read the file (`read` gives the
byte count, `none` for an I/O error), compute key and content type, then
either log the dry-run line, or issue the put (`store` says whether the
store accepts it) and log success. -/
def uploadAction (dry : Bool) (pre : String)
    (store : String → Nat → String → Bool) (read : String → Option Nat)
    (rel : String) : Except UploadError UploadOut :=
  match read rel with
  | none => Except.error UploadError.fileReadError
  | some n =>
    let key := mapKey rel pre
    let ct := contentTypeOf rel
    if dry then
      Except.ok (["[dry] PUT " ++ key ++ " (" ++ toString n ++ " bytes)"], [])
    else if store key n ct then Except.ok (["PUT " ++ key], [(key, n, ct)])
    else Except.error UploadError.transferError

/-- Total number of per-file log lines recorded in the results array. -/
def totalLogs (s : LCState UploadOut) : Nat :=
  (s.results.map (fun o => match o with
    | some v => v.1.length
    | none => 0)).sum

/-- Total number of store puts recorded in the results array. -/
def totalPuts (s : LCState UploadOut) : Nat :=
  (s.results.map (fun o => match o with
    | some v => v.2.length
    | none => 0)).sum

/-- The number of runner tasks part_001 creates:
`Array.from({length: Math.min(limit, items.length)}, run)`, where the
`limit` comes from `parseInt` (`none` = `NaN`) and JavaScript's `ToLength`
clamps negative numbers and `NaN` to `0`. -/
def runnersLen (c : Option Int) (L : Nat) : Nat :=
  match c with
  | some k => (min k (L : Int)).toNat
  | none => 0

/-! Concrete scenario for claim C2 (spec Scenario D): three enumerated files
of which the second is deleted between enumeration and read; a single worker
(`concurrency 1`) processes them in order. -/

/-- Reads succeed with 3 bytes except for the vanished `b.txt`. -/
def c2Read : String → Option Nat :=
  fun r => if r = "b.txt" then none else some 3

/-- The three enumerated files of Scenario D. -/
def c2Items : List String := ["a.txt", "b.txt", "c.txt"]

/-- The live-mode worker of Scenario D over an always-accepting store. -/
def c2Worker : String → Except UploadError UploadOut :=
  uploadAction false "" (fun _ _ _ => true) c2Read

/-- The final state of Scenario D under part_002's scheduler with one
worker: three resumption opportunities for runner 0. -/
def c2Final : LCState UploadOut :=
  run claimB c2Items c2Worker [0, 0, 0] (launch claimB UploadOut 3 1)

/-- A dry run over one enumerated file whose read fails. -/
def c6Final : LCState UploadOut :=
  run claimB ["a.txt"] (uploadAction true "" (fun _ _ _ => true) (fun _ => none))
    [0] (launch claimB UploadOut 1 1)

/-! ## Theorems -/

example :
    run claimA ["a", "bb", "ccc"] (fun x => Except.ok (ε := Unit) x.length)
      [0, 1, 0, 1] (launch claimA Nat 3 2)
    = ⟨5, [some 1, some 2, some 3],
       [Runner.done, Runner.done], [0, 1, 2]⟩ := by decide

example :
    run claimB ["a", "bb", "ccc"] (fun x => Except.ok (ε := Unit) x.length)
      [0, 1, 0, 1] (launch claimB Nat 3 2)
    = ⟨3, [some 1, some 2, some 3],
       [Runner.done, Runner.done], [0, 1, 2]⟩ := by decide

example : exitCode (launch claimA Nat 0 7) = some 0 := by decide

example : mapKey "sub\\b.jpg" "backup/" = "backup/sub/b.jpg" := by decide
example : mapKey "a.txt" "/" = "/a.txt" := by decide
example : contentTypeOf "photo.jpg" = "image/jpeg" := by decide
example : contentTypeOf "file.xyz" = "application/octet-stream" := by decide
example : parseArgs ["--dir", "d", "--concurrency", "0"]
    = some ⟨"d", "", false, some 0⟩ := by decide
example : parseArgs ["--prefix", "p"] = none := by decide
example : jsParseInt "abc" = none := by decide
example : jsParseInt "-12x" = some (-12) := by decide

theorem goodClaimA : GoodClaim claimA := by
  intro L n
  constructor
  · intro h
    simp [claimA, h]
  · intro h
    simp [claimA, Nat.not_lt.mpr h]

/-! ### Ownership bookkeeping -/

@[simp] theorem Runner.isDone_suspended (i : Nat) :
    (Runner.suspended i).isDone = false := rfl

@[simp] theorem Runner.isDone_done : Runner.done.isDone = true := rfl

@[simp] theorem Runner.isDone_failed (i : Nat) :
    (Runner.failed i).isDone = false := rfl

@[simp] theorem Runner.isFailed_suspended (i : Nat) :
    (Runner.suspended i).isFailed = false := rfl

@[simp] theorem Runner.isFailed_done : Runner.done.isFailed = false := rfl

@[simp] theorem Runner.isFailed_failed (i : Nat) :
    (Runner.failed i).isFailed = true := rfl

theorem lOwner_lt_length {rs : List Runner} {r i : Nat}
    (h : lOwner rs r i) : r < rs.length := by
  rcases h with h | h
  all_goals
    obtain ⟨hlt, -⟩ := List.getElem?_eq_some.mp h
  · exact hlt
  · exact hlt

theorem lOwner_append {rs : List Runner} {x : Runner} {r i : Nat} :
    lOwner (rs ++ [x]) r i ↔
      lOwner rs r i ∨
        (r = rs.length ∧ (x = Runner.suspended i ∨ x = Runner.failed i)) := by
  unfold lOwner
  rcases Nat.lt_trichotomy r rs.length with h | h | h
  · rw [List.getElem?_append]
    simp [h, Nat.ne_of_lt h]
  · subst h
    have hnone : rs[rs.length]? = none := List.getElem?_eq_none (Nat.le_refl _)
    simp [List.getElem?_concat_length, hnone, eq_comm]
  · have h1 : (rs ++ [x])[r]? = none := by
      apply List.getElem?_eq_none
      simp only [List.length_append, List.length_cons, List.length_nil]
      omega
    have h2 : rs[r]? = none := List.getElem?_eq_none (Nat.le_of_lt h)
    simp [h1, h2]
    omega

theorem lOwner_set {rs : List Runner} {r₀ : Nat} {x : Runner} {r i : Nat} :
    lOwner (rs.set r₀ x) r i ↔
      (r ≠ r₀ ∧ lOwner rs r i) ∨
        (r = r₀ ∧ r₀ < rs.length ∧
          (x = Runner.suspended i ∨ x = Runner.failed i)) := by
  unfold lOwner
  by_cases hr : r = r₀
  · subst hr
    by_cases hlen : r < rs.length
    · rw [List.getElem?_set_self (by simpa using hlen)]
      simp [hlen, eq_comm]
    · have h1 : (rs.set r x)[r]? = none :=
        List.getElem?_eq_none (by simpa using Nat.le_of_not_lt hlen)
      simp [h1, hlen]
  · rw [List.getElem?_set_ne (fun h => hr h.symm)]
    simp [hr]

theorem Inv.own_res {ι ρ ε : Type} {items : List ι} {w : ι → Except ε ρ}
    {s : LCState ρ} (h : Inv items w s) {r i : Nat} (hr : ownerAt s r i) :
    s.results[i]? = some none := by
  have hlt := h.own_lt r i hr
  have hiR : i < s.results.length := by
    rw [h.len]
    exact lt_of_lt_of_le hlt (Nat.min_le_right _ _)
  obtain ⟨o, ho⟩ : ∃ o, s.results[i]? = some o :=
    ⟨_, List.getElem?_eq_getElem hiR⟩
  match o, ho with
  | none, ho => exact ho
  | some v, ho => exact absurd hr ((h.res_ok i v ho).2.2 r)

theorem getElem?_append_one {α : Type} (l : List α) (x : α) (r : Nat) :
    (l ++ [x])[r]? = if r < l.length then l[r]?
      else if r = l.length then some x else none := by
  rcases Nat.lt_trichotomy r l.length with h | h | h
  · rw [List.getElem?_append]
    simp [h]
  · subst h
    simp [List.getElem?_concat_length]
  · rw [List.getElem?_eq_none (l := l ++ [x]) (by
      simp only [List.length_append, List.length_cons, List.length_nil]
      omega)]
    rw [if_neg (by omega), if_neg (by omega)]

theorem inv_init {ι ρ ε : Type} (items : List ι) (w : ι → Except ε ρ) :
    Inv items w ⟨0, List.replicate items.length none, [], []⟩ := by
  refine ⟨?_, ?_, ?_, ?_, ?_, ?_, ?_, ?_⟩
  · simp
  · simp
  · intro r i hown
    rcases hown with hown | hown <;> simp at hown
  · intro i v hres
    simp only [List.getElem?_replicate] at hres
    split at hres <;> simp at hres
  · intro r₁ r₂ i h₁ h₂
    rcases h₁ with h | h <;> simp at h
  · intro i hi
    simp at hi
  · intro r hr
    simp at hr
  · intro r i hr
    simp at hr

theorem goodClaimB : GoodClaim claimB := by
  intro L n
  constructor
  · intro h
    simp [claimB, h]
  · intro h
    simp [claimB, Nat.not_lt.mpr h]

theorem inv_spawn {ι ρ ε : Type} {items : List ι} {w : ι → Except ε ρ}
    {claim : Nat → Nat → Runner × Nat} (hc : GoodClaim claim)
    {s : LCState ρ} (h : Inv items w s) :
    Inv items w (spawn claim items.length s) := by
  by_cases hn : s.nextIndex < items.length
  · have hcl : claim items.length s.nextIndex
        = (Runner.suspended s.nextIndex, s.nextIndex + 1) :=
      (hc items.length s.nextIndex).1 hn
    have hmin : min s.nextIndex items.length = s.nextIndex :=
      Nat.min_eq_left (Nat.le_of_lt hn)
    have hmin' : min (s.nextIndex + 1) items.length = s.nextIndex + 1 :=
      Nat.min_eq_left hn
    have hs' : spawn claim items.length s
        = ⟨s.nextIndex + 1, s.results,
           s.runners ++ [Runner.suspended s.nextIndex],
           s.claims ++ [s.nextIndex]⟩ := by
      simp [spawn, hcl, claimRec]
    rw [hs']
    refine ⟨h.len, ?_, ?_, ?_, ?_, ?_, ?_, ?_⟩
    · show s.claims ++ [s.nextIndex] = _
      rw [h.claims_eq, hmin]
      show _ = List.range (min (s.nextIndex + 1) items.length)
      rw [hmin']
      exact (List.range_succ s.nextIndex).symm
    · intro r i hown
      show i < min (s.nextIndex + 1) items.length
      rw [hmin']
      rcases lOwner_append.mp hown with hold | ⟨-, hx⟩
      · have := h.own_lt r i hold
        rw [hmin] at this
        omega
      · rcases hx with hx | hx
        · injection hx with hx'
          omega
        · cases hx
    · intro i v hres
      obtain ⟨h1, h2, h3⟩ := h.res_ok i v hres
      rw [hmin] at h1
      refine ⟨?_, h2, ?_⟩
      · show i < min (s.nextIndex + 1) items.length
        rw [hmin']
        omega
      · intro r hown
        rcases lOwner_append.mp hown with hold | ⟨-, hx⟩
        · exact h3 r hold
        · rcases hx with hx | hx
          · injection hx with hx'
            omega
          · cases hx
    · intro r₁ r₂ i h₁ h₂
      rcases lOwner_append.mp h₁ with ho₁ | ⟨hr₁, hx₁⟩
      · rcases lOwner_append.mp h₂ with ho₂ | ⟨hr₂, hx₂⟩
        · exact h.uniq r₁ r₂ i ho₁ ho₂
        · rcases hx₂ with hx | hx
          · injection hx with hx'
            have := h.own_lt r₁ i ho₁
            rw [hmin] at this
            omega
          · cases hx
      · rcases lOwner_append.mp h₂ with ho₂ | ⟨hr₂, hx₂⟩
        · rcases hx₁ with hx | hx
          · injection hx with hx'
            have := h.own_lt r₂ i ho₂
            rw [hmin] at this
            omega
          · cases hx
        · rw [hr₁, hr₂]
    · intro i hi
      replace hi : i < s.nextIndex + 1 := by
        rw [hmin'] at hi
        exact hi
      by_cases hin : i < s.nextIndex
      · rcases h.cover i (by rw [hmin]; exact hin) with ⟨v, hv⟩ | ⟨r, hr⟩
        · exact Or.inl ⟨v, hv⟩
        · exact Or.inr ⟨r, lOwner_append.mpr (Or.inl hr)⟩
      · have hieq : i = s.nextIndex := by omega
        subst hieq
        exact Or.inr ⟨s.runners.length,
          lOwner_append.mpr (Or.inr ⟨rfl, Or.inl rfl⟩)⟩
    · intro r hr
      rw [getElem?_append_one] at hr
      split_ifs at hr with hc1 hc2
      · exact le_trans (h.done_n r hr) (Nat.le_succ _)
      · simp at hr
    · intro r i hr
      rw [getElem?_append_one] at hr
      split_ifs at hr with hc1 hc2
      · exact h.fail_err r i hr
      · simp at hr
  · have hL : items.length ≤ s.nextIndex := Nat.le_of_not_lt hn
    obtain ⟨hdone, hle⟩ := (hc items.length s.nextIndex).2 hL
    have hs' : spawn claim items.length s
        = ⟨(claim items.length s.nextIndex).2, s.results,
           s.runners ++ [Runner.done], s.claims⟩ := by
      simp [spawn, hdone, claimRec]
    rw [hs']
    have hminEq : min (claim items.length s.nextIndex).2 items.length
        = min s.nextIndex items.length := by omega
    refine ⟨h.len, ?_, ?_, ?_, ?_, ?_, ?_, ?_⟩
    · show s.claims = _
      rw [h.claims_eq]
      show _ = List.range (min (claim items.length s.nextIndex).2 items.length)
      rw [hminEq]
    · intro r i hown
      show i < min (claim items.length s.nextIndex).2 items.length
      rw [hminEq]
      rcases lOwner_append.mp hown with hold | ⟨-, hx⟩
      · exact h.own_lt r i hold
      · rcases hx with hx | hx <;> cases hx
    · intro i v hres
      obtain ⟨h1, h2, h3⟩ := h.res_ok i v hres
      refine ⟨?_, h2, ?_⟩
      · show i < min (claim items.length s.nextIndex).2 items.length
        rw [hminEq]
        exact h1
      · intro r hown
        rcases lOwner_append.mp hown with hold | ⟨-, hx⟩
        · exact h3 r hold
        · rcases hx with hx | hx <;> cases hx
    · intro r₁ r₂ i h₁ h₂
      rcases lOwner_append.mp h₁ with ho₁ | ⟨-, hx₁⟩
      · rcases lOwner_append.mp h₂ with ho₂ | ⟨-, hx₂⟩
        · exact h.uniq r₁ r₂ i ho₁ ho₂
        · rcases hx₂ with hx | hx <;> cases hx
      · rcases hx₁ with hx | hx <;> cases hx
    · intro i hi
      replace hi : i < min s.nextIndex items.length := by
        rw [hminEq] at hi
        exact hi
      rcases h.cover i hi with ⟨v, hv⟩ | ⟨r, hr⟩
      · exact Or.inl ⟨v, hv⟩
      · exact Or.inr ⟨r, lOwner_append.mpr (Or.inl hr)⟩
    · intro r hr
      rw [getElem?_append_one] at hr
      split_ifs at hr with hc1 hc2
      · exact le_trans (h.done_n r hr) hle
      · exact le_trans hL hle
    · intro r i hr
      rw [getElem?_append_one] at hr
      split_ifs at hr with hc1 hc2
      · exact h.fail_err r i hr
      · simp at hr

/-! ### How `step` rewrites under each scrutinee -/

theorem step_none {ι ρ ε : Type} {claim : Nat → Nat → Runner × Nat}
    {items : List ι} {w : ι → Except ε ρ} {s : LCState ρ} {r₀ : Nat}
    (heq : s.runners[r₀]? = none) : step claim items w s r₀ = s := by
  unfold step
  rw [heq]

theorem step_done {ι ρ ε : Type} {claim : Nat → Nat → Runner × Nat}
    {items : List ι} {w : ι → Except ε ρ} {s : LCState ρ} {r₀ : Nat}
    (heq : s.runners[r₀]? = some Runner.done) :
    step claim items w s r₀ = s := by
  unfold step
  rw [heq]

theorem step_failed {ι ρ ε : Type} {claim : Nat → Nat → Runner × Nat}
    {items : List ι} {w : ι → Except ε ρ} {s : LCState ρ} {r₀ i : Nat}
    (heq : s.runners[r₀]? = some (Runner.failed i)) :
    step claim items w s r₀ = s := by
  unfold step
  rw [heq]

theorem step_inner_none {ι ρ ε : Type} {claim : Nat → Nat → Runner × Nat}
    {items : List ι} {w : ι → Except ε ρ} {s : LCState ρ} {r₀ i : Nat}
    (heq : s.runners[r₀]? = some (Runner.suspended i))
    (hv : (items[i]?).map w = none) : step claim items w s r₀ = s := by
  simp only [step, heq, hv]

theorem step_ok {ι ρ ε : Type} {claim : Nat → Nat → Runner × Nat}
    {items : List ι} {w : ι → Except ε ρ} {s : LCState ρ} {r₀ i : Nat}
    {v : ρ} (heq : s.runners[r₀]? = some (Runner.suspended i))
    (hv : (items[i]?).map w = some (Except.ok v)) :
    step claim items w s r₀ =
      ⟨(claim items.length s.nextIndex).2,
       s.results.set i (some v),
       s.runners.set r₀ (claim items.length s.nextIndex).1,
       s.claims ++ claimRec (claim items.length s.nextIndex).1⟩ := by
  simp only [step, heq, hv]

theorem step_err {ι ρ ε : Type} {claim : Nat → Nat → Runner × Nat}
    {items : List ι} {w : ι → Except ε ρ} {s : LCState ρ} {r₀ i : Nat}
    {e : ε} (heq : s.runners[r₀]? = some (Runner.suspended i))
    (hv : (items[i]?).map w = some (Except.error e)) :
    step claim items w s r₀ =
      { s with runners := s.runners.set r₀ (Runner.failed i) } := by
  simp only [step, heq, hv]

theorem inv_step {ι ρ ε : Type} {items : List ι} {w : ι → Except ε ρ}
    {claim : Nat → Nat → Runner × Nat} (hc : GoodClaim claim)
    {s : LCState ρ} (h : Inv items w s) (r₀ : Nat) :
    Inv items w (step claim items w s r₀) := by
  cases hr : s.runners[r₀]? with
  | none =>
    rw [step_none hr]
    exact h
  | some k =>
    cases k with
    | done =>
      rw [step_done hr]
      exact h
    | failed i =>
      rw [step_failed hr]
      exact h
    | suspended i =>
      have hown₀ : lOwner s.runners r₀ i := Or.inl hr
      have hr₀lt : r₀ < s.runners.length := lOwner_lt_length hown₀
      have hi_min : i < min s.nextIndex items.length := h.own_lt r₀ i hown₀
      have hiL : i < items.length :=
        lt_of_lt_of_le hi_min (Nat.min_le_right _ _)
      have hi_n : i < s.nextIndex :=
        lt_of_lt_of_le hi_min (Nat.min_le_left _ _)
      have hiR : i < s.results.length := by
        rw [h.len]
        exact hiL
      cases hv : (items[i]?).map w with
      | none =>
        rw [step_inner_none hr hv]
        exact h
      | some res =>
        cases res with
        | error e =>
          rw [step_err hr hv]
          have howniff : ∀ r j,
              lOwner (s.runners.set r₀ (Runner.failed i)) r j ↔
                lOwner s.runners r j := by
            intro r j
            rw [lOwner_set]
            constructor
            · rintro (⟨hne, hold⟩ | ⟨rfl, -, hx⟩)
              · exact hold
              · rcases hx with hx | hx
                · cases hx
                · injection hx with hx'
                  subst hx'
                  exact hown₀
            · intro hold
              by_cases hrr : r = r₀
              · subst hrr
                refine Or.inr ⟨rfl, hr₀lt, Or.inr ?_⟩
                rcases hold with hold | hold <;> rw [hr] at hold
                · injection hold with hx'
                  injection hx' with hx''
                  rw [hx'']
                · simp at hold
              · exact Or.inl ⟨hrr, hold⟩
          refine ⟨h.len, h.claims_eq, ?_, ?_, ?_, ?_, ?_, ?_⟩
          · intro r j hown
            exact h.own_lt r j ((howniff r j).mp hown)
          · intro j u hres
            obtain ⟨h1, h2, h3⟩ := h.res_ok j u hres
            exact ⟨h1, h2, fun r hown => h3 r ((howniff r j).mp hown)⟩
          · intro r₁ r₂ j h₁ h₂
            exact h.uniq r₁ r₂ j ((howniff r₁ j).mp h₁) ((howniff r₂ j).mp h₂)
          · intro j hj
            rcases h.cover j hj with ⟨u, hu⟩ | ⟨r, hrown⟩
            · exact Or.inl ⟨u, hu⟩
            · exact Or.inr ⟨r, (howniff r j).mpr hrown⟩
          · intro r hdone
            rw [List.getElem?_set] at hdone
            split_ifs at hdone with a
            · simp at hdone
            · exact h.done_n r hdone
          · intro r j hfail
            rw [List.getElem?_set] at hfail
            split_ifs at hfail with a
            · injection hfail with hx'
              injection hx' with hx''
              subst hx''
              exact ⟨e, hv⟩
            · exact h.fail_err r j hfail
        | ok v =>
          rw [step_ok hr hv]
          by_cases hn : s.nextIndex < items.length
          · have hcl : claim items.length s.nextIndex
                = (Runner.suspended s.nextIndex, s.nextIndex + 1) :=
              (hc items.length s.nextIndex).1 hn
            rw [hcl]
            have hmin : min s.nextIndex items.length = s.nextIndex :=
              Nat.min_eq_left (Nat.le_of_lt hn)
            have hmin' : min (s.nextIndex + 1) items.length
                = s.nextIndex + 1 := Nat.min_eq_left hn
            refine ⟨?_, ?_, ?_, ?_, ?_, ?_, ?_, ?_⟩
            · show (s.results.set i (some v)).length = items.length
              rw [List.length_set]
              exact h.len
            · show s.claims ++ [s.nextIndex]
                = List.range (min (s.nextIndex + 1) items.length)
              rw [h.claims_eq, hmin, hmin']
              exact (List.range_succ s.nextIndex).symm
            · intro r j hown
              show j < min (s.nextIndex + 1) items.length
              rw [hmin']
              rcases lOwner_set.mp hown with ⟨-, hold⟩ | ⟨-, -, hx⟩
              · have := h.own_lt r j hold
                rw [hmin] at this
                omega
              · rcases hx with hx | hx
                · injection hx with hx'
                  omega
                · cases hx
            · intro j u hres
              rw [List.getElem?_set] at hres
              by_cases hij : i = j
              · subst hij
                rw [if_pos rfl, if_pos hiR] at hres
                injection hres with hres'
                injection hres' with hres''
                subst hres''
                refine ⟨?_, hv, ?_⟩
                · show i < min (s.nextIndex + 1) items.length
                  rw [hmin']
                  omega
                · intro r hown
                  rcases lOwner_set.mp hown with ⟨hne, hold⟩ | ⟨rfl, -, hx⟩
                  · exact hne (h.uniq r r₀ i hold hown₀)
                  · rcases hx with hx | hx
                    · injection hx with hx'
                      omega
                    · cases hx
              · rw [if_neg hij] at hres
                obtain ⟨h1, h2, h3⟩ := h.res_ok j u hres
                rw [hmin] at h1
                refine ⟨?_, h2, ?_⟩
                · show j < min (s.nextIndex + 1) items.length
                  rw [hmin']
                  omega
                · intro r hown
                  rcases lOwner_set.mp hown with ⟨-, hold⟩ | ⟨rfl, -, hx⟩
                  · exact h3 r hold
                  · rcases hx with hx | hx
                    · injection hx with hx'
                      omega
                    · cases hx
            · intro r₁ r₂ j h₁ h₂
              rcases lOwner_set.mp h₁ with ⟨hne₁, ho₁⟩ | ⟨rfl, -, hx₁⟩
              · rcases lOwner_set.mp h₂ with ⟨hne₂, ho₂⟩ | ⟨rfl, -, hx₂⟩
                · exact h.uniq r₁ r₂ j ho₁ ho₂
                · rcases hx₂ with hx | hx
                  · injection hx with hx'
                    have := h.own_lt r₁ j ho₁
                    rw [hmin] at this
                    omega
                  · cases hx
              · rcases lOwner_set.mp h₂ with ⟨hne₂, ho₂⟩ | ⟨rfl, -, hx₂⟩
                · rcases hx₁ with hx | hx
                  · injection hx with hx'
                    have := h.own_lt r₂ j ho₂
                    rw [hmin] at this
                    omega
                  · cases hx
                · rfl
            · intro j hj
              replace hj : j < s.nextIndex + 1 := by
                rw [hmin'] at hj
                exact hj
              by_cases hij : j = i
              · subst hij
                exact Or.inl ⟨v, List.getElem?_set_self hiR⟩
              · by_cases hjn : j < s.nextIndex
                · rcases h.cover j (by rw [hmin]; exact hjn) with ⟨u, hu⟩ | ⟨r, hrown⟩
                  · refine Or.inl ⟨u, ?_⟩
                    rw [List.getElem?_set_ne (fun hh => hij hh.symm)]
                    exact hu
                  · by_cases hrr : r = r₀
                    · subst hrr
                      rcases hrown with hrown | hrown <;> rw [hr] at hrown
                      · injection hrown with hx'
                        injection hx' with hx''
                        exact absurd hx''.symm hij
                      · simp at hrown
                    · exact Or.inr ⟨r, lOwner_set.mpr (Or.inl ⟨hrr, hrown⟩)⟩
                · have hjeq : j = s.nextIndex := by omega
                  subst hjeq
                  exact Or.inr ⟨r₀,
                    lOwner_set.mpr (Or.inr ⟨rfl, hr₀lt, Or.inl rfl⟩)⟩
            · intro r hdone
              show items.length ≤ s.nextIndex + 1
              rw [List.getElem?_set] at hdone
              split_ifs at hdone with a
              · simp at hdone
              · have := h.done_n r hdone
                omega
            · intro r j hfail
              rw [List.getElem?_set] at hfail
              split_ifs at hfail with a
              · simp at hfail
              · exact h.fail_err r j hfail
          · have hL : items.length ≤ s.nextIndex := Nat.le_of_not_lt hn
            obtain ⟨hdone1, hle⟩ := (hc items.length s.nextIndex).2 hL
            rw [hdone1]
            have hminEq : min (claim items.length s.nextIndex).2 items.length
                = min s.nextIndex items.length := by omega
            refine ⟨?_, ?_, ?_, ?_, ?_, ?_, ?_, ?_⟩
            · show (s.results.set i (some v)).length = items.length
              rw [List.length_set]
              exact h.len
            · show s.claims ++ claimRec Runner.done
                = List.range (min (claim items.length s.nextIndex).2 items.length)
              rw [hminEq, ← h.claims_eq]
              simp [claimRec]
            · intro r j hown
              show j < min (claim items.length s.nextIndex).2 items.length
              rw [hminEq]
              rcases lOwner_set.mp hown with ⟨-, hold⟩ | ⟨-, -, hx⟩
              · exact h.own_lt r j hold
              · rcases hx with hx | hx <;> cases hx
            · intro j u hres
              rw [List.getElem?_set] at hres
              by_cases hij : i = j
              · subst hij
                rw [if_pos rfl, if_pos hiR] at hres
                injection hres with hres'
                injection hres' with hres''
                subst hres''
                refine ⟨?_, hv, ?_⟩
                · show i < min (claim items.length s.nextIndex).2 items.length
                  rw [hminEq]
                  exact hi_min
                · intro r hown
                  rcases lOwner_set.mp hown with ⟨hne, hold⟩ | ⟨rfl, -, hx⟩
                  · exact hne (h.uniq r r₀ i hold hown₀)
                  · rcases hx with hx | hx <;> cases hx
              · rw [if_neg hij] at hres
                obtain ⟨h1, h2, h3⟩ := h.res_ok j u hres
                refine ⟨?_, h2, ?_⟩
                · show j < min (claim items.length s.nextIndex).2 items.length
                  rw [hminEq]
                  exact h1
                · intro r hown
                  rcases lOwner_set.mp hown with ⟨-, hold⟩ | ⟨rfl, -, hx⟩
                  · exact h3 r hold
                  · rcases hx with hx | hx <;> cases hx
            · intro r₁ r₂ j h₁ h₂
              rcases lOwner_set.mp h₁ with ⟨hne₁, ho₁⟩ | ⟨rfl, -, hx₁⟩
              · rcases lOwner_set.mp h₂ with ⟨hne₂, ho₂⟩ | ⟨rfl, -, hx₂⟩
                · exact h.uniq r₁ r₂ j ho₁ ho₂
                · rcases hx₂ with hx | hx <;> cases hx
              · rcases hx₁ with hx | hx <;> cases hx
            · intro j hj
              replace hj : j < min s.nextIndex items.length := by
                rw [hminEq] at hj
                exact hj
              by_cases hij : j = i
              · subst hij
                exact Or.inl ⟨v, List.getElem?_set_self hiR⟩
              · rcases h.cover j hj with ⟨u, hu⟩ | ⟨r, hrown⟩
                · refine Or.inl ⟨u, ?_⟩
                  rw [List.getElem?_set_ne (fun hh => hij hh.symm)]
                  exact hu
                · by_cases hrr : r = r₀
                  · subst hrr
                    rcases hrown with hrown | hrown <;> rw [hr] at hrown
                    · injection hrown with hx'
                      injection hx' with hx''
                      exact absurd hx''.symm hij
                    · simp at hrown
                  · exact Or.inr ⟨r, lOwner_set.mpr (Or.inl ⟨hrr, hrown⟩)⟩
            · intro r hdone
              show items.length ≤ (claim items.length s.nextIndex).2
              rw [List.getElem?_set] at hdone
              split_ifs at hdone with a
              · omega
              · have := h.done_n r hdone
                omega
            · intro r j hfail
              rw [List.getElem?_set] at hfail
              split_ifs at hfail with a
              · simp at hfail
              · exact h.fail_err r j hfail

theorem inv_run {ι ρ ε : Type} {items : List ι} {w : ι → Except ε ρ}
    {claim : Nat → Nat → Runner × Nat} (hc : GoodClaim claim)
    (sched : List Nat) {s : LCState ρ} (h : Inv items w s) :
    Inv items w (run claim items w sched s) := by
  induction sched generalizing s with
  | nil => exact h
  | cons r t ih =>
    show Inv items w (List.foldl (step claim items w) s (r :: t))
    rw [List.foldl_cons]
    exact ih (inv_step hc h r)

theorem inv_spawnN {ι ρ ε : Type} {items : List ι} {w : ι → Except ε ρ}
    {claim : Nat → Nat → Runner × Nat} (hc : GoodClaim claim)
    (k : Nat) {s : LCState ρ} (h : Inv items w s) :
    Inv items w (spawnN claim items.length k s) := by
  induction k generalizing s with
  | zero => exact h
  | succ k ih => exact ih (inv_spawn hc h)

theorem inv_launch {ι ρ ε : Type} (items : List ι) (w : ι → Except ε ρ)
    {claim : Nat → Nat → Runner × Nat} (hc : GoodClaim claim) (C : Nat) :
    Inv items w (launch claim ρ items.length C) :=
  inv_spawnN hc _ (inv_init items w)

/-! ### Runner counts -/

theorem runners_spawnN {ρ : Type} (claim : Nat → Nat → Runner × Nat)
    (L : Nat) (k : Nat) (s : LCState ρ) :
    (spawnN claim L k s).runners.length = s.runners.length + k := by
  induction k generalizing s with
  | zero => rfl
  | succ k ih =>
    show (spawnN claim L k (spawn claim L s)).runners.length = _
    rw [ih]
    show (s.runners ++ [(claim L s.nextIndex).1]).length + k = _
    rw [List.length_append]
    simp
    omega

theorem runners_launch {ρ : Type} (claim : Nat → Nat → Runner × Nat)
    (L C : Nat) : (launch claim ρ L C).runners.length = min C L := by
  show (spawnN claim L (min C L) _).runners.length = min C L
  rw [runners_spawnN]
  simp

theorem runners_step {ι ρ ε : Type} (claim : Nat → Nat → Runner × Nat)
    (items : List ι) (w : ι → Except ε ρ) (s : LCState ρ) (r₀ : Nat) :
    (step claim items w s r₀).runners.length = s.runners.length := by
  cases hr : s.runners[r₀]? with
  | none => rw [step_none hr]
  | some k =>
    cases k with
    | done => rw [step_done hr]
    | failed i => rw [step_failed hr]
    | suspended i =>
      cases hv : (items[i]?).map w with
      | none => rw [step_inner_none hr hv]
      | some res =>
        cases res with
        | error e =>
          rw [step_err hr hv]
          exact List.length_set _ _ _
        | ok v =>
          rw [step_ok hr hv]
          exact List.length_set _ _ _

theorem runners_run {ι ρ ε : Type} (claim : Nat → Nat → Runner × Nat)
    (items : List ι) (w : ι → Except ε ρ) (sched : List Nat)
    (s : LCState ρ) :
    (run claim items w sched s).runners.length = s.runners.length := by
  induction sched generalizing s with
  | nil => rfl
  | cons r t ih =>
    show (List.foldl (step claim items w) s (r :: t)).runners.length = _
    rw [List.foldl_cons]
    rw [show List.foldl (step claim items w) (step claim items w s r) t
      = run claim items w t (step claim items w s r) from rfl]
    rw [ih, runners_step]

/-! ### Facts about completed executions -/

theorem allDone_no_owner {ρ : Type} {s : LCState ρ}
    (hd : allDone s = true) (r i : Nat) : ¬ ownerAt s r i := by
  intro hown
  rcases hown with hr | hr
  all_goals
    have hmem := List.get?_mem (by rw [List.get?_eq_getElem?]; exact hr)
  all_goals
    have := List.all_eq_true.mp hd _ hmem
  all_goals
    simp at this

theorem allDone_anyFailed {ρ : Type} {s : LCState ρ}
    (hd : allDone s = true) : anyFailed s = false := by
  rw [anyFailed]
  cases hf : s.runners.any Runner.isFailed with
  | false => rfl
  | true =>
    obtain ⟨x, hmem, hx⟩ := List.any_eq_true.mp hf
    have := List.all_eq_true.mp hd x hmem
    cases x <;> simp at hx this

theorem terminal_complete {ι ρ ε : Type} {items : List ι}
    {w : ι → Except ε ρ} {s : LCState ρ} (h : Inv items w s)
    (hd : allDone s = true) (hne : s.runners ≠ [] ∨ items.length = 0) :
    s.claims = List.range items.length ∧
    ∀ i, i < items.length → ∃ v, s.results[i]? = some (some v) ∧
      (items[i]?).map w = some (Except.ok v) := by
  have hminL : min s.nextIndex items.length = items.length := by
    rcases hne with hne | hL0
    · have hlen : 0 < s.runners.length := List.length_pos.mpr hne
      obtain ⟨k, hk⟩ : ∃ k, s.runners[0]? = some k :=
        ⟨_, List.getElem?_eq_getElem hlen⟩
      have hmem := List.get?_mem (by rw [List.get?_eq_getElem?]; exact hk)
      have hdk := List.all_eq_true.mp hd _ hmem
      cases k with
      | suspended i => simp at hdk
      | failed i => simp at hdk
      | done => exact Nat.min_eq_right (h.done_n 0 hk)
    · omega
  constructor
  · rw [h.claims_eq, hminL]
  · intro i hi
    have hi' : i < min s.nextIndex items.length := by
      rw [hminL]
      exact hi
    rcases h.cover i hi' with ⟨v, hv⟩ | ⟨r, hrown⟩
    · exact ⟨v, hv, (h.res_ok i v hv).2.1⟩
    · exact absurd hrown (allDone_no_owner hd r i)

theorem final_facts {ι ρ ε : Type} {claim : Nat → Nat → Runner × Nat}
    (hc : GoodClaim claim) {items : List ι} {w : ι → Except ε ρ}
    {C : Nat} {sched : List Nat} (hC : 1 ≤ C)
    (hd : allDone (run claim items w sched
      (launch claim ρ items.length C)) = true) :
    (run claim items w sched (launch claim ρ items.length C)).claims
      = List.range items.length ∧
    ∀ i, i < items.length →
      ∃ v, (run claim items w sched
          (launch claim ρ items.length C)).results[i]? = some (some v) ∧
        (items[i]?).map w = some (Except.ok v) := by
  have h := inv_run hc sched (inv_launch items w hc C)
  apply terminal_complete h hd
  by_cases hL : items.length = 0
  · exact Or.inr hL
  · left
    intro hnil
    have h1 : (run claim items w sched
        (launch claim ρ items.length C)).runners.length = min C items.length := by
      rw [runners_run, runners_launch]
    rw [hnil] at h1
    simp at h1
    omega

theorem results_eq_of_facts {ι ρ : Type} {items : List ι} {w0 : ι → ρ}
    {res : List (Option ρ)} (hlen : res.length = items.length)
    (hfact : ∀ i, i < items.length → ∃ v, res[i]? = some (some v) ∧
      ((items[i]?).map (fun x => Except.ok (ε := Unit) (w0 x)))
        = some (Except.ok v)) :
    res = items.map (fun x => some (w0 x)) := by
  apply List.ext_get?
  intro n
  rw [List.get?_eq_getElem?, List.get?_eq_getElem?]
  by_cases hn : n < items.length
  · obtain ⟨v, hv, hmapv⟩ := hfact n hn
    obtain ⟨x, hx⟩ : ∃ x, items[n]? = some x :=
      ⟨_, List.getElem?_eq_getElem hn⟩
    rw [hx] at hmapv
    simp only [Option.map_some'] at hmapv
    injection hmapv with hmapv'
    injection hmapv' with hmapv''
    rw [hv, List.getElem?_map, hx]
    simp only [Option.map_some']
    rw [hmapv'']
  · rw [List.getElem?_eq_none (l := res) (by rw [hlen]; omega),
      List.getElem?_eq_none (l := items.map fun x => some (w0 x)) (by
        rw [List.length_map]
        omega)]

/-! ### Simulation between the two source variants -/

theorem sim_spawn {ρ : Type} {L : Nat} {sA sB : LCState ρ} (hs : Sim L sA sB) :
    Sim L (spawn claimA L sA) (spawn claimB L sB) := by
  obtain ⟨h1, h2, h3, h4, h5⟩ := hs
  by_cases hn : sA.nextIndex < L
  · have hnB : sB.nextIndex = sA.nextIndex := by omega
    have hclA : claimA L sA.nextIndex
        = (Runner.suspended sA.nextIndex, sA.nextIndex + 1) := by
      simp [claimA, hn]
    have hclB : claimB L sB.nextIndex
        = (Runner.suspended sA.nextIndex, sA.nextIndex + 1) := by
      rw [hnB]
      simp [claimB, hn]
    refine ⟨h1, ?_, ?_, ?_, ?_⟩
    · show sA.runners ++ [(claimA L sA.nextIndex).1]
        = sB.runners ++ [(claimB L sB.nextIndex).1]
      rw [h2, hclA, hclB]
    · show sA.claims ++ claimRec (claimA L sA.nextIndex).1
        = sB.claims ++ claimRec (claimB L sB.nextIndex).1
      rw [h3, hclA, hclB]
    · show min (claimA L sA.nextIndex).2 L = (claimB L sB.nextIndex).2
      rw [hclA, hclB]
      show min (sA.nextIndex + 1) L = sA.nextIndex + 1
      omega
    · show (claimB L sB.nextIndex).2 ≤ L
      rw [hclB]
      show sA.nextIndex + 1 ≤ L
      omega
  · have hL : L ≤ sA.nextIndex := Nat.le_of_not_lt hn
    have hnB : sB.nextIndex = L := by omega
    have hclA : claimA L sA.nextIndex = (Runner.done, sA.nextIndex + 1) := by
      simp [claimA, hn]
    have hclB : claimB L sB.nextIndex = (Runner.done, sB.nextIndex) := by
      rw [hnB]
      simp [claimB]
    refine ⟨h1, ?_, ?_, ?_, ?_⟩
    · show sA.runners ++ [(claimA L sA.nextIndex).1]
        = sB.runners ++ [(claimB L sB.nextIndex).1]
      rw [h2, hclA, hclB]
    · show sA.claims ++ claimRec (claimA L sA.nextIndex).1
        = sB.claims ++ claimRec (claimB L sB.nextIndex).1
      rw [h3, hclA, hclB]
    · show min (claimA L sA.nextIndex).2 L = (claimB L sB.nextIndex).2
      rw [hclA, hclB]
      show min (sA.nextIndex + 1) L = sB.nextIndex
      omega
    · show (claimB L sB.nextIndex).2 ≤ L
      rw [hclB]
      omega

theorem sim_step {ι ρ ε : Type} {items : List ι} {w : ι → Except ε ρ}
    {sA sB : LCState ρ} (hs : Sim items.length sA sB) (r₀ : Nat) :
    Sim items.length (step claimA items w sA r₀)
      (step claimB items w sB r₀) := by
  obtain ⟨h1, h2, h3, h4, h5⟩ := hs
  cases hr : sA.runners[r₀]? with
  | none =>
    have hrB : sB.runners[r₀]? = none := by rw [← h2]; exact hr
    rw [step_none hr, step_none hrB]
    exact ⟨h1, h2, h3, h4, h5⟩
  | some k =>
    have hrB : sB.runners[r₀]? = some k := by rw [← h2]; exact hr
    cases k with
    | done =>
      rw [step_done hr, step_done hrB]
      exact ⟨h1, h2, h3, h4, h5⟩
    | failed i =>
      rw [step_failed hr, step_failed hrB]
      exact ⟨h1, h2, h3, h4, h5⟩
    | suspended i =>
      cases hv : (items[i]?).map w with
      | none =>
        rw [step_inner_none hr hv, step_inner_none hrB hv]
        exact ⟨h1, h2, h3, h4, h5⟩
      | some res =>
        cases res with
        | error e =>
          rw [step_err hr hv, step_err hrB hv]
          refine ⟨h1, ?_, h3, h4, h5⟩
          show sA.runners.set r₀ (Runner.failed i)
            = sB.runners.set r₀ (Runner.failed i)
          rw [h2]
        | ok v =>
          rw [step_ok hr hv, step_ok hrB hv]
          by_cases hn : sA.nextIndex < items.length
          · have hnB : sB.nextIndex = sA.nextIndex := by omega
            have hclA : claimA items.length sA.nextIndex
                = (Runner.suspended sA.nextIndex, sA.nextIndex + 1) := by
              simp [claimA, hn]
            have hclB : claimB items.length sB.nextIndex
                = (Runner.suspended sA.nextIndex, sA.nextIndex + 1) := by
              rw [hnB]
              simp [claimB, hn]
            refine ⟨?_, ?_, ?_, ?_, ?_⟩
            · show sA.results.set i (some v) = sB.results.set i (some v)
              rw [h1]
            · show sA.runners.set r₀ (claimA items.length sA.nextIndex).1
                = sB.runners.set r₀ (claimB items.length sB.nextIndex).1
              rw [h2, hclA, hclB]
            · show sA.claims ++ claimRec (claimA items.length sA.nextIndex).1
                = sB.claims ++ claimRec (claimB items.length sB.nextIndex).1
              rw [h3, hclA, hclB]
            · show min (claimA items.length sA.nextIndex).2 items.length
                = (claimB items.length sB.nextIndex).2
              rw [hclA, hclB]
              show min (sA.nextIndex + 1) items.length = sA.nextIndex + 1
              omega
            · show (claimB items.length sB.nextIndex).2 ≤ items.length
              rw [hclB]
              show sA.nextIndex + 1 ≤ items.length
              omega
          · have hL : items.length ≤ sA.nextIndex := Nat.le_of_not_lt hn
            have hnB : sB.nextIndex = items.length := by omega
            have hclA : claimA items.length sA.nextIndex
                = (Runner.done, sA.nextIndex + 1) := by
              simp [claimA, hn]
            have hclB : claimB items.length sB.nextIndex
                = (Runner.done, sB.nextIndex) := by
              rw [hnB]
              simp [claimB]
            refine ⟨?_, ?_, ?_, ?_, ?_⟩
            · show sA.results.set i (some v) = sB.results.set i (some v)
              rw [h1]
            · show sA.runners.set r₀ (claimA items.length sA.nextIndex).1
                = sB.runners.set r₀ (claimB items.length sB.nextIndex).1
              rw [h2, hclA, hclB]
            · show sA.claims ++ claimRec (claimA items.length sA.nextIndex).1
                = sB.claims ++ claimRec (claimB items.length sB.nextIndex).1
              rw [h3, hclA, hclB]
            · show min (claimA items.length sA.nextIndex).2 items.length
                = (claimB items.length sB.nextIndex).2
              rw [hclA, hclB]
              show min (sA.nextIndex + 1) items.length = sB.nextIndex
              omega
            · show (claimB items.length sB.nextIndex).2 ≤ items.length
              rw [hclB]
              omega

theorem sim_run {ι ρ ε : Type} {items : List ι} {w : ι → Except ε ρ}
    (sched : List Nat) {sA sB : LCState ρ}
    (hs : Sim items.length sA sB) :
    Sim items.length (run claimA items w sched sA)
      (run claimB items w sched sB) := by
  induction sched generalizing sA sB with
  | nil => exact hs
  | cons r t ih =>
    show Sim items.length (List.foldl (step claimA items w) sA (r :: t))
      (List.foldl (step claimB items w) sB (r :: t))
    rw [List.foldl_cons, List.foldl_cons]
    exact ih (sim_step hs r)

theorem sim_spawnN {ρ : Type} {L : Nat} (k : Nat) {sA sB : LCState ρ}
    (hs : Sim L sA sB) :
    Sim L (spawnN claimA L k sA) (spawnN claimB L k sB) := by
  induction k generalizing sA sB with
  | zero => exact hs
  | succ k ih => exact ih (sim_spawn hs)

theorem sim_launch (ρ : Type) (L C : Nat) :
    Sim L (launch claimA ρ L C) (launch claimB ρ L C) :=
  sim_spawnN (min C L) ⟨rfl, rfl, rfl, by show min 0 L = 0; omega,
    Nat.zero_le L⟩

/-! ### Key Mapper lemmas -/

theorem empty_append_str (s : String) : "" ++ s = s :=
  String.ext (by rw [String.data_append]; rfl)

theorem str_ne_empty_of_data {s : String} {c : Char} {cs : List Char}
    (h : s.data = c :: cs) : s ≠ "" := by
  intro he
  rw [he] at h
  cases h

theorem dropWhile_head_not_slash (l : List Char) (c : Char) (cs : List Char)
    (h : l.dropWhile (fun d => d == '/') = c :: cs) : (c == '/') = false := by
  induction l with
  | nil => cases h
  | cons x t ih =>
    rw [List.dropWhile_cons] at h
    by_cases hx : (x == '/') = true
    · rw [if_pos hx] at h
      exact ih h
    · rw [if_neg hx] at h
      injection h with h1 h2
      subst h1
      simpa using hx

theorem dropWhile_ne_nil_of_any (l : List Char)
    (h : l.any (fun c => !(c == '/')) = true) :
    l.dropWhile (fun c => c == '/') ≠ [] := by
  induction l with
  | nil => simp at h
  | cons x t ih =>
    rw [List.dropWhile_cons]
    by_cases hx : (x == '/') = true
    · rw [if_pos hx]
      apply ih
      rw [List.any_cons] at h
      rw [hx] at h
      simpa using h
    · rw [if_neg hx]
      simp

theorem dropWhile_concat_getLast (l : List Char) (c : Char)
    (hc : (c == '/') = false) :
    (l ++ [c]).dropWhile (fun d => d == '/') ≠ [] ∧
    ((l ++ [c]).dropWhile (fun d => d == '/')).getLast? = some c := by
  induction l with
  | nil =>
    rw [List.nil_append, List.dropWhile_cons, if_neg (by simp [hc])]
    exact ⟨by simp, rfl⟩
  | cons x t ih =>
    rw [List.cons_append, List.dropWhile_cons]
    by_cases hx : (x == '/') = true
    · rw [if_pos hx]
      exact ih
    · rw [if_neg hx]
      refine ⟨by simp, ?_⟩
      rw [show x :: (t ++ [c]) = (x :: t) ++ [c] from rfl]
      exact List.getLast?_concat _

/-- Structure of the trimmed prefix when the prefix has a non-slash
character: it is nonempty and neither begins nor ends with a slash. -/
theorem trimSlashes_spec (X : String) (hX : hasNonSlash X = true) :
    trimSlashes X ≠ "" ∧ headIsSlash (trimSlashes X) = false ∧
    endsWithSlash (trimSlashes X) = false := by
  have hd_ne : X.data.dropWhile (fun c => c == '/') ≠ [] :=
    dropWhile_ne_nil_of_any _ hX
  obtain ⟨hd, tl, hdt⟩ :
      ∃ hd tl, X.data.dropWhile (fun c => c == '/') = hd :: tl := by
    cases hcase : X.data.dropWhile (fun c => c == '/') with
    | nil => exact absurd hcase hd_ne
    | cons a b => exact ⟨a, b, rfl⟩
  have hhd : (hd == '/') = false := dropWhile_head_not_slash _ hd tl hdt
  obtain ⟨hσ_ne, hσ_last⟩ := dropWhile_concat_getLast tl.reverse hd hhd
  have hdata : (trimSlashes X).data
      = ((tl.reverse ++ [hd]).dropWhile (fun d => d == '/')).reverse := by
    show ((X.data.dropWhile (fun c => c == '/')).reverse.dropWhile
      (fun c => c == '/')).reverse = _
    rw [hdt, List.reverse_cons]
  obtain ⟨c, cs, hccs⟩ :
      ∃ c cs, (tl.reverse ++ [hd]).dropWhile (fun d => d == '/')
        = c :: cs := by
    cases hcase : (tl.reverse ++ [hd]).dropWhile (fun d => d == '/') with
    | nil => exact absurd hcase hσ_ne
    | cons a b => exact ⟨a, b, rfl⟩
  have hcσ : (c == '/') = false := dropWhile_head_not_slash _ c cs hccs
  have hhead : (trimSlashes X).data.head? = some hd := by
    rw [hdata, List.head?_reverse, hσ_last]
  have hlast : (trimSlashes X).data.getLast? = some c := by
    rw [hdata, List.getLast?_reverse, hccs]
    rfl
  refine ⟨?_, ?_, ?_⟩
  · intro hemp
    rw [hemp] at hhead
    cases hhead
  · simp only [headIsSlash, hhead]
    exact hhd
  · simp only [endsWithSlash, hlast]
    exact hcσ

theorem hasNonSlash_ne_empty {X : String} (hX : hasNonSlash X = true) :
    X ≠ "" := by
  obtain ⟨c, hmem, -⟩ := List.any_eq_true.mp hX
  intro he
  rw [he] at hmem
  cases hmem

theorem mapKey_empty (P : String) : mapKey P "" = normalizeSep P := by
  unfold mapKey
  rw [if_pos rfl]
  exact empty_append_str _

theorem mapKey_decomp (P X : String) (hX : X ≠ "") :
    mapKey P X = trimSlashes X ++ "/" ++ normalizeSep P := by
  unfold mapKey
  rw [if_neg hX]

theorem headIsSlash_mapKey (P X : String) (hX : hasNonSlash X = true) :
    headIsSlash (mapKey P X) = false := by
  obtain ⟨htne, hthead, -⟩ := trimSlashes_spec X hX
  obtain ⟨hd, hhd⟩ : ∃ hd, (trimSlashes X).data.head? = some hd := by
    cases hcase : (trimSlashes X).data with
    | nil =>
      exact absurd (String.ext hcase : trimSlashes X = "") htne
    | cons a b => exact ⟨a, rfl⟩
  have hhd_slash : (hd == '/') = false := by
    simp only [headIsSlash, hhd] at hthead
    exact hthead
  have hdata : (mapKey P X).data
      = (trimSlashes X).data ++ ('/' :: (normalizeSep P).data) := by
    rw [mapKey_decomp P X (hasNonSlash_ne_empty hX)]
    rw [String.data_append, String.data_append]
    rw [show ("/" : String).data = ['/'] from rfl]
    rw [List.append_assoc]
    rfl
  have hheadm : (mapKey P X).data.head? = some hd := by
    rw [hdata]
    rw [List.head?_append_of_ne_nil]
    · exact hhd
    · intro he
      rw [he] at hhd
      cases hhd
  simp only [headIsSlash, hheadm]
  exact hhd_slash

/-! ### The dry-run worker -/

theorem uploadAction_dry_store_blind (pre : String)
    (store store' : String → Nat → String → Bool)
    (read : String → Option Nat) :
    uploadAction true pre store read = uploadAction true pre store' read := by
  funext rel
  unfold uploadAction
  cases read rel <;> rfl

theorem uploadAction_dry_ok {pre : String}
    {store : String → Nat → String → Bool} {read : String → Option Nat}
    {rel : String} {v : UploadOut}
    (h : uploadAction true pre store read rel = Except.ok v) :
    v.1.length = 1 ∧ v.2 = [] := by
  unfold uploadAction at h
  cases hread : read rel with
  | none =>
    rw [hread] at h
    cases h
  | some n =>
    rw [hread] at h
    simp only [if_pos] at h
    injection h with h'
    subst h'
    exact ⟨rfl, rfl⟩

theorem totalPuts_zero {pre : String}
    {store : String → Nat → String → Bool} {read : String → Option Nat}
    {rels : List String} {s : LCState UploadOut}
    (h : Inv rels (uploadAction true pre store read) s) :
    totalPuts s = 0 := by
  apply List.sum_eq_zero
  intro x hx
  obtain ⟨o, ho, rfl⟩ := List.mem_map.mp hx
  obtain ⟨j, hj⟩ := List.mem_iff_get?.mp ho
  cases o with
  | none => rfl
  | some v =>
    rw [List.get?_eq_getElem?] at hj
    obtain ⟨-, hmap, -⟩ := h.res_ok j v hj
    cases hrel : rels[j]? with
    | none =>
      rw [hrel] at hmap
      cases hmap
    | some rel =>
      rw [hrel] at hmap
      simp only [Option.map_some'] at hmap
      injection hmap with hmap'
      obtain ⟨-, h2⟩ := uploadAction_dry_ok hmap'
      show v.2.length = 0
      rw [h2]
      rfl

theorem totalLogs_done {claim : Nat → Nat → Runner × Nat}
    (hc : GoodClaim claim) {pre : String}
    {store : String → Nat → String → Bool} {read : String → Option Nat}
    {rels : List String} {C : Nat} {sched : List Nat} (hC : 1 ≤ C)
    (hd : allDone (run claim rels (uploadAction true pre store read) sched
      (launch claim UploadOut rels.length C)) = true) :
    totalLogs (run claim rels (uploadAction true pre store read) sched
      (launch claim UploadOut rels.length C)) = rels.length := by
  obtain ⟨-, hfact⟩ := final_facts hc hC hd
  have hlen : (run claim rels (uploadAction true pre store read) sched
      (launch claim UploadOut rels.length C)).results.length = rels.length :=
    (inv_run hc sched (inv_launch rels _ hc C)).len
  have hrep : (run claim rels (uploadAction true pre store read) sched
      (launch claim UploadOut rels.length C)).results.map
        (fun o => match o with
          | some v => v.1.length
          | none => 0) = List.replicate rels.length 1 := by
    rw [List.eq_replicate_iff]
    refine ⟨by rw [List.length_map, hlen], ?_⟩
    intro b hb
    obtain ⟨o, ho, rfl⟩ := List.mem_map.mp hb
    obtain ⟨j, hj⟩ := List.mem_iff_get?.mp ho
    rw [List.get?_eq_getElem?] at hj
    have hjlt : j < rels.length := by
      obtain ⟨hlt, -⟩ := List.getElem?_eq_some.mp hj
      rw [hlen] at hlt
      exact hlt
    obtain ⟨v, hv, hmap⟩ := hfact j hjlt
    rw [hj] at hv
    injection hv with hv'
    subst hv'
    cases hrel : rels[j]? with
    | none =>
      rw [hrel] at hmap
      cases hmap
    | some rel =>
      rw [hrel] at hmap
      simp only [Option.map_some'] at hmap
      injection hmap with hmap'
      obtain ⟨h1len, -⟩ := uploadAction_dry_ok hmap'
      exact h1len
  rw [totalLogs, hrep, List.sum_replicate]
  simp

theorem result_at_of_fact {ι ρ : Type} {items : List ι} {w0 : ι → ρ}
    {res : List (Option ρ)} {i : Nat} (hi : i < items.length)
    (hfact : ∃ v, res[i]? = some (some v) ∧
      ((items[i]?).map (fun x => Except.ok (ε := Unit) (w0 x)))
        = some (Except.ok v)) :
    res[i]? = some (some (w0 (items.get ⟨i, hi⟩))) := by
  obtain ⟨v, hv, hmap⟩ := hfact
  have hx : items[i]? = some (items.get ⟨i, hi⟩) := by
    rw [List.getElem?_eq_getElem hi]
    rfl
  rw [hx] at hmap
  simp only [Option.map_some'] at hmap
  injection hmap with hmap'
  injection hmap' with hmap''
  rw [hv, hmap'']

/-! ## Claim theorems -/

/-- C1: for every FileEntry sequence and every concurrency limit `C ≥ 1`,
`limitConcurrency` (both source variants) hands each index `0..L-1` to
exactly one worker — the ghost claim log is exactly `[0, ..., L-1]` — and
every interleaving of the workers' suspension points that completes
produces exactly `L` results, one per input index. -/
theorem spec_C1 {ι ρ : Type} (items : List ι) (w0 : ι → ρ) (C : Nat)
    (schedA schedB : List Nat) (hC : 1 ≤ C)
    (hdA : allDone (runA items (fun x => Except.ok (ε := Unit) (w0 x)) C
      schedA) = true)
    (hdB : allDone (runB items (fun x => Except.ok (ε := Unit) (w0 x)) C
      schedB) = true) :
    (runA items (fun x => Except.ok (ε := Unit) (w0 x)) C schedA).claims
      = List.range items.length ∧
    (runA items (fun x => Except.ok (ε := Unit) (w0 x)) C schedA).results
      = items.map (fun x => some (w0 x)) ∧
    (runB items (fun x => Except.ok (ε := Unit) (w0 x)) C schedB).claims
      = List.range items.length ∧
    (runB items (fun x => Except.ok (ε := Unit) (w0 x)) C schedB).results
      = items.map (fun x => some (w0 x)) := by
  obtain ⟨hclA, hfactA⟩ := final_facts goodClaimA hC hdA
  obtain ⟨hclB, hfactB⟩ := final_facts goodClaimB hC hdB
  exact ⟨hclA,
    results_eq_of_facts
      (inv_run goodClaimA schedA (inv_launch items _ goodClaimA C)).len hfactA,
    hclB,
    results_eq_of_facts
      (inv_run goodClaimB schedB (inv_launch items _ goodClaimB C)).len hfactB⟩

/-- Witness for C1 at a concrete three-file run with concurrency 2. -/
theorem spec_C1_witness :
    (runA ["a", "bb", "ccc"] (fun x => Except.ok (ε := Unit) x.length) 2
      [0, 1, 0]).claims = List.range 3 ∧
    (runA ["a", "bb", "ccc"] (fun x => Except.ok (ε := Unit) x.length) 2
      [0, 1, 0]).results
      = (["a", "bb", "ccc"] : List String).map (fun x => some x.length) ∧
    (runB ["a", "bb", "ccc"] (fun x => Except.ok (ε := Unit) x.length) 2
      [0, 1, 0]).claims = List.range 3 ∧
    (runB ["a", "bb", "ccc"] (fun x => Except.ok (ε := Unit) x.length) 2
      [0, 1, 0]).results
      = (["a", "bb", "ccc"] : List String).map (fun x => some x.length) :=
  spec_C1 ["a", "bb", "ccc"] String.length 2 [0, 1, 0] [0, 1, 0]
    (by decide) (by decide) (by decide)

/-- C2 counterexample (spec Scenario D): three files, the second deleted
before its read, one worker.  The failure is NOT caught at the worker
boundary: only one success is recorded (not two), no UploadResult exists
for any file after the failure, the failing worker claims no further index
(claims stop at `[0, 1]`), and the run aborts through `main().catch` with
exit code 1. -/
theorem spec_C2_cex :
    exitCode c2Final = some 1 ∧
    okCount c2Final = 1 ∧
    ¬ okCount c2Final = 2 ∧
    c2Final.results[2]? = some none ∧
    c2Final.claims = [0, 1] ∧
    c2Final.runners = [Runner.failed 1] := by
  decide

/-- C2 amended: a worker failure is not caught at the worker boundary;
the worker's promise rejects as `Promise.all` observes it, `main().catch`
exits 1 (and only a run with all workers done exits 0); the failed worker's
claimed index never receives an UploadResult and its worker call indeed
threw. -/
theorem spec_C2_amended {ι ρ ε : Type} (claim : Nat → Nat → Runner × Nat)
    (hc : GoodClaim claim) (items : List ι) (w : ι → Except ε ρ) (C : Nat)
    (sched : List Nat) :
    (anyFailed (run claim items w sched
        (launch claim ρ items.length C)) = true →
      exitCode (run claim items w sched
        (launch claim ρ items.length C)) = some 1) ∧
    (allDone (run claim items w sched
        (launch claim ρ items.length C)) = true →
      exitCode (run claim items w sched
        (launch claim ρ items.length C)) = some 0) ∧
    (∀ (r : Nat) (i : Nat), (run claim items w sched
        (launch claim ρ items.length C)).runners[r]?
          = some (Runner.failed i) →
      (run claim items w sched
          (launch claim ρ items.length C)).results[i]? = some none ∧
        ∃ e, (items[i]?).map w = some (Except.error e)) := by
  have h := inv_run hc sched (inv_launch items w hc C)
  refine ⟨?_, ?_, ?_⟩
  · intro hf
    rw [exitCode, if_pos hf]
  · intro hd
    rw [exitCode, if_neg (by rw [allDone_anyFailed hd]; simp), if_pos hd]
  · intro r i hfail
    exact ⟨h.own_res (Or.inr hfail), h.fail_err r i hfail⟩

/-- Witness for C2 at the Scenario-D run. -/
theorem spec_C2_witness :
    anyFailed c2Final = true ∧ exitCode c2Final = some 1 :=
  ⟨by decide,
    (spec_C2_amended claimB goodClaimB c2Items c2Worker 1 [0, 0, 0]).1
      (by decide)⟩

/-- C3: the Key Mapper of `main` is total (a Lean function) and agrees with
the spec's algorithm: backslashes normalized, prefix trimmed of leading and
trailing slashes and joined with a single slash when nonempty, the
normalized path alone when empty; Scenario B evaluates as specified. -/
theorem spec_C3 :
    (∀ rel pre, mapKey rel pre = specMap rel pre) ∧
    mapKey "sub\\b.jpg" "backup/" = "backup/sub/b.jpg" ∧
    normalizeSep "sub\\b.jpg" = "sub/b.jpg" := by
  refine ⟨?_, by decide, by decide⟩
  intro rel pre
  unfold mapKey specMap
  by_cases h : pre = ""
  · rw [if_pos h, if_pos h, empty_append_str]
    rfl
  · rw [if_neg h, if_neg h]
    rfl

/-- C4 counterexample: for the all-slash prefix `"/"` (nonempty, hence
truthy) the trimmed prefix is empty and the produced key begins with a
slash, refuting "map(P, X) never begins with `/`". -/
theorem spec_C4_cex :
    mapKey "a.txt" "/" = "/a.txt" ∧
    headIsSlash (mapKey "a.txt" "/") = true := by
  decide

/-- C4 amended: for a relative path `P` (whose normalization does not begin
with a slash) and a prefix `X` containing at least one non-slash character,
`map(P, "") = normalize(P)`, the key decomposes as trimmed prefix, a single
join slash, and the normalized path — with the trimmed prefix nonempty, not
ending in a slash, and the path not beginning with one, so no doubled slash
at the join — and the key does not begin with `/`.  (For a nonempty
all-slash prefix the key does begin with `/`, per the counterexample.) -/
theorem spec_C4_amended (P X : String)
    (hP : headIsSlash (normalizeSep P) = false)
    (hX : hasNonSlash X = true) :
    mapKey P "" = normalizeSep P ∧
    mapKey P X = trimSlashes X ++ "/" ++ normalizeSep P ∧
    trimSlashes X ≠ "" ∧
    endsWithSlash (trimSlashes X) = false ∧
    headIsSlash (normalizeSep P) = false ∧
    headIsSlash (mapKey P X) = false := by
  obtain ⟨h1, -, h3⟩ := trimSlashes_spec X hX
  exact ⟨mapKey_empty P, mapKey_decomp P X (hasNonSlash_ne_empty hX), h1, h3,
    hP, headIsSlash_mapKey P X hX⟩

/-- Witness for C4 at Scenario B's inputs. -/
theorem spec_C4_witness :
    headIsSlash (normalizeSep "sub\\b.jpg") = false ∧
    hasNonSlash "backup/" = true ∧
    (mapKey "sub\\b.jpg" "" = normalizeSep "sub\\b.jpg" ∧
     mapKey "sub\\b.jpg" "backup/"
       = trimSlashes "backup/" ++ "/" ++ normalizeSep "sub\\b.jpg" ∧
     trimSlashes "backup/" ≠ "" ∧
     endsWithSlash (trimSlashes "backup/") = false ∧
     headIsSlash (normalizeSep "sub\\b.jpg") = false ∧
     headIsSlash (mapKey "sub\\b.jpg" "backup/") = false) :=
  ⟨by decide, by decide,
    spec_C4_amended "sub\\b.jpg" "backup/" (by decide) (by decide)⟩

/-- C5: `limitConcurrency` (both variants) launches exactly `min(C, L)`
runner tasks — never more runners than items (e.g. `C = 100` against 3
items gives 3) — and with zero items it launches zero runners and is
complete immediately, with exit status 0. -/
theorem spec_C5 (ρ : Type) (L C : Nat) :
    (launch claimA ρ L C).runners.length = min C L ∧
    (launch claimB ρ L C).runners.length = min C L ∧
    (launch claimA ρ 0 C).runners = [] ∧
    allDone (launch claimA ρ 0 C) = true ∧
    exitCode (launch claimA ρ 0 C) = some 0 ∧
    (launch claimB ρ 0 C).runners = [] ∧
    allDone (launch claimB ρ 0 C) = true ∧
    exitCode (launch claimB ρ 0 C) = some 0 ∧
    (launch claimA ρ 3 100).runners.length = 3 := by
  have hz : ∀ claim : Nat → Nat → Runner × Nat,
      launch claim ρ 0 C = ⟨0, [], [], []⟩ := by
    intro claim
    show spawnN claim 0 (min C 0) _ = _
    rw [Nat.min_zero]
    rfl
  refine ⟨runners_launch _ _ _, runners_launch _ _ _, ?_, ?_, ?_, ?_, ?_, ?_,
    ?_⟩
  · rw [hz]
  · rw [hz]
    rfl
  · rw [hz]
    rfl
  · rw [hz]
  · rw [hz]
    rfl
  · rw [hz]
    rfl
  · rw [runners_launch]
    omega

/-- C7: result slot `i` of a completed `limitConcurrency` run (either
variant) holds exactly the worker's value for input item `i`, for every
interleaving. -/
theorem spec_C7 {ι ρ : Type} (items : List ι) (w0 : ι → ρ) (C : Nat)
    (schedA schedB : List Nat) (hC : 1 ≤ C)
    (hdA : allDone (runA items (fun x => Except.ok (ε := Unit) (w0 x)) C
      schedA) = true)
    (hdB : allDone (runB items (fun x => Except.ok (ε := Unit) (w0 x)) C
      schedB) = true) :
    ∀ (i : Nat) (hi : i < items.length),
      (runA items (fun x => Except.ok (ε := Unit) (w0 x)) C
          schedA).results[i]? = some (some (w0 (items.get ⟨i, hi⟩))) ∧
      (runB items (fun x => Except.ok (ε := Unit) (w0 x)) C
          schedB).results[i]? = some (some (w0 (items.get ⟨i, hi⟩))) := by
  intro i hi
  obtain ⟨-, hfactA⟩ := final_facts goodClaimA hC hdA
  obtain ⟨-, hfactB⟩ := final_facts goodClaimB hC hdB
  exact ⟨result_at_of_fact hi (hfactA i hi), result_at_of_fact hi (hfactB i hi)⟩

/-- Witness for C7 at the concrete three-file run. -/
theorem spec_C7_witness :
    (runA ["a", "bb", "ccc"] (fun x => Except.ok (ε := Unit) x.length) 2
        [0, 1, 0]).results[1]?
      = some (some ((["a", "bb", "ccc"] : List String).get
          ⟨1, by decide⟩).length) ∧
    (runB ["a", "bb", "ccc"] (fun x => Except.ok (ε := Unit) x.length) 2
        [0, 1, 0]).results[1]?
      = some (some ((["a", "bb", "ccc"] : List String).get
          ⟨1, by decide⟩).length) :=
  spec_C7 ["a", "bb", "ccc"] String.length 2 [0, 1, 0] [0, 1, 0]
    (by decide) (by decide) (by decide) 1 (by decide)

/-- C6 counterexample: a dry run over one enumerated file whose read fails
produces zero log lines (not one per file) and aborts with exit 1 — though
the store is indeed never touched. -/
theorem spec_C6_cex :
    totalLogs c6Final = 0 ∧
    ¬ totalLogs c6Final = 1 ∧
    totalPuts c6Final = 0 ∧
    exitCode c6Final = some 1 := by
  decide

/-- C6 amended: with the dry flag set the run has zero observable store
interaction — the whole execution is independent of the store client and no
put is ever recorded — and every run that completes (all workers done)
produces exactly one log line per enumerated file; a failing read instead
rejects the run (counterexample). -/
theorem spec_C6_amended (claim : Nat → Nat → Runner × Nat)
    (hc : GoodClaim claim) (pre : String)
    (store store' : String → Nat → String → Bool)
    (read : String → Option Nat) (rels : List String) (C : Nat)
    (sched : List Nat) :
    run claim rels (uploadAction true pre store read) sched
        (launch claim UploadOut rels.length C)
      = run claim rels (uploadAction true pre store' read) sched
        (launch claim UploadOut rels.length C) ∧
    totalPuts (run claim rels (uploadAction true pre store read) sched
      (launch claim UploadOut rels.length C)) = 0 ∧
    (1 ≤ C →
      allDone (run claim rels (uploadAction true pre store read) sched
        (launch claim UploadOut rels.length C)) = true →
      totalLogs (run claim rels (uploadAction true pre store read) sched
        (launch claim UploadOut rels.length C)) = rels.length) := by
  refine ⟨?_, ?_, ?_⟩
  · rw [uploadAction_dry_store_blind pre store store' read]
  · exact totalPuts_zero (inv_run hc sched (inv_launch rels _ hc C))
  · intro hC hd
    exact totalLogs_done hc hC hd

/-- Witness for C6 at a completing one-file dry run. -/
theorem spec_C6_witness :
    (1 : Nat) ≤ 1 ∧
    allDone (run claimB ["a.txt"]
      (uploadAction true "" (fun _ _ _ => true) (fun _ => some 3)) [0]
      (launch claimB UploadOut 1 1)) = true ∧
    totalLogs (run claimB ["a.txt"]
      (uploadAction true "" (fun _ _ _ => true) (fun _ => some 3)) [0]
      (launch claimB UploadOut 1 1)) = 1 :=
  ⟨by decide, by decide,
    (spec_C6_amended claimB goodClaimB "" (fun _ _ _ => true)
      (fun _ _ _ => false) (fun _ => some 3) ["a.txt"] 1 [0]).2.2
      (by decide) (by decide)⟩

/-- C8 counterexample: `--concurrency 0` is accepted by `parseArgs` — no
`InvalidConfig` rejection exists — and the run then launches zero workers
and completes with exit status 0 instead of failing. -/
theorem spec_C8_cex :
    parseArgs ["--dir", "d", "--concurrency", "0"]
      = some ⟨"d", "", false, some 0⟩ ∧
    runnersLen (some 0) 3 = 0 ∧
    allDone (launch claimA Nat 3 (runnersLen (some 0) 3)) = true ∧
    exitCode (launch claimA Nat 3 (runnersLen (some 0) 3)) = some 0 := by
  decide

/-- C8 amended: `parseArgs` validates only `--dir`; any non-positive
`--concurrency` value is accepted into the configuration, `Math.min`
then clamps the part_001 runner count to zero, and the run completes
immediately with exit status 0, uploading nothing. -/
theorem spec_C8_amended (ρ : Type) (d s : String) (c : Int) (L : Nat)
    (hd : d ≠ "") (hs : jsParseInt s = some c) (hcle : c ≤ 0) :
    parseArgs ["--dir", d, "--concurrency", s]
      = some ⟨d, "", false, some c⟩ ∧
    runnersLen (some c) L = 0 ∧
    (launch claimA ρ L (runnersLen (some c) L)).runners = [] ∧
    allDone (launch claimA ρ L (runnersLen (some c) L)) = true ∧
    exitCode (launch claimA ρ L (runnersLen (some c) L)) = some 0 := by
  have hs_ne : s ≠ "" := by
    intro he
    rw [he] at hs
    have h0 : jsParseInt "" = (none : Option Int) := by decide
    rw [h0] at hs
    cases hs
  have hrl : runnersLen (some c) L = 0 := by
    show (min c (L : Int)).toNat = 0
    rw [Int.toNat_eq_zero]
    exact le_trans (min_le_left _ _) hcle
  have hlz : launch claimA ρ L 0 = ⟨0, List.replicate L none, [], []⟩ := by
    show spawnN claimA L (min 0 L) _ = _
    rw [Nat.zero_min]
    rfl
  refine ⟨?_, hrl, ?_, ?_, ?_⟩
  · have hloop : parseLoop ["--dir", d, "--concurrency", s]
        ⟨"", "", false, some 5⟩ = ⟨d, "", false, jsParseInt s⟩ := by
      simp [parseLoop, hs_ne]
    unfold parseArgs
    rw [hloop, hs]
    simp [hd]
  · rw [hrl, hlz]
  · rw [hrl, hlz]
    rfl
  · rw [hrl, hlz]
    rfl

/-- Witness for C8 at `--concurrency 0` with three files. -/
theorem spec_C8_witness :
    ("d" : String) ≠ "" ∧ jsParseInt "0" = some 0 ∧ (0 : Int) ≤ 0 ∧
    parseArgs ["--dir", "d", "--concurrency", "0"]
      = some ⟨"d", "", false, some 0⟩ :=
  ⟨by decide, by decide, by decide,
    (spec_C8_amended Nat "d" "0" 0 3 (by decide) (by decide) (by decide)).1⟩

/-- C9: the Content-Type Resolver (`mime.lookup(rel) || '...'`) is total:
a known extension resolves through the static table, an unknown or absent
one falls back to `application/octet-stream`; Scenario C evaluates as
specified. -/
theorem spec_C9 :
    (∀ name t, mimeLookup name = some t → contentTypeOf name = t) ∧
    (∀ name, mimeLookup name = none →
      contentTypeOf name = "application/octet-stream") ∧
    contentTypeOf "file.xyz" = "application/octet-stream" ∧
    contentTypeOf "photo.jpg" = "image/jpeg" := by
  refine ⟨?_, ?_, by decide, by decide⟩
  · intro name t h
    unfold contentTypeOf
    rw [h]
    rfl
  · intro name h
    unfold contentTypeOf
    rw [h]
    rfl

/-- Witness for C9 at `photo.jpg`. -/
theorem spec_C9_witness :
    mimeLookup "photo.jpg" = some "image/jpeg" ∧
    contentTypeOf "photo.jpg" = "image/jpeg" :=
  ⟨by decide, spec_C9.1 "photo.jpg" "image/jpeg" (by decide)⟩

/-- C10: the two `limitConcurrency` implementations are observationally
equivalent: under every interleaving they launch the same runner sequence,
record the same claims in the same order, and fill the same results —
for every items sequence, limit, and worker. -/
theorem spec_C10 {ι ρ ε : Type} (items : List ι) (w : ι → Except ε ρ)
    (C : Nat) (sched : List Nat) :
    (launch claimA ρ items.length C).runners
      = (launch claimB ρ items.length C).runners ∧
    (runA items w C sched).results = (runB items w C sched).results ∧
    (runA items w C sched).runners = (runB items w C sched).runners ∧
    (runA items w C sched).claims = (runB items w C sched).claims := by
  obtain ⟨-, hr0, -, -, -⟩ := sim_launch ρ items.length C
  obtain ⟨h1, h2, h3, -, -⟩ := sim_run sched (sim_launch ρ items.length C)
  exact ⟨hr0, h1, h2, h3⟩

end OneDriveClone
